import Mathlib

/-!
Verification of scripts/extract_bible_data.py.

The script has two pure cores:
  * extract_books : scans the lines of a text file for 6-line book blocks
    (color line, number line, four name lines) and collects them into a
    Python dict keyed by book number;
  * extract_plan : folds over the reading_plan rows (ordered by day, item),
    grouping consecutive rows with the same day into DayPlan records, using
    current_day = -1 as the "no current day" sentinel.

We embed both as executable Lean functions over the same data the Python
code manipulates: the list of lines of the input file (each line a String)
and the list of rows of the reading_plan table.  Python dicts are modelled
as assignment lists in scan order (lookup = last assignment, key order =
first insertion).  Machine integers do not overflow here (Python ints are
unbounded), so book numbers are Nat and SQLite column values are Int.
-/

/-! ### Python string primitives used by the script -/

/-- Whitespace removed by Python str.strip() (ASCII subset; the source
lines contain only ASCII whitespace). -/
def isPySpace (c : Char) : Bool :=
  c = ' ' || c = '\t' || c = '\n' || c = '\r' || c = '\x0b' || c = '\x0c'

/-- Python str.strip(): drop leading and trailing whitespace. -/
def pyStrip (s : String) : String :=
  ⟨((s.data.dropWhile isPySpace).reverse.dropWhile isPySpace).reverse⟩

/-- ASCII decimal digit. -/
def isAsciiDigit (c : Char) : Bool := '0' ≤ c && c ≤ '9'

/-- Characters that Python str.isdigit() accepts although int() rejects
them: digits of Numeric_Type=Digit such as the superscripts (modelled by a
representative set).  For these, `s.isdigit()` is True but `int(s)` raises
ValueError. -/
def isSuperscriptDigit (c : Char) : Bool := c = '¹' || c = '²' || c = '³'

/-- A character accepted by Python str.isdigit(). -/
def pyIsDigitChar (c : Char) : Bool := isAsciiDigit c || isSuperscriptDigit c

/-- Python s.isdigit(): nonempty and every character is a digit. -/
def pyStrIsDigit (s : String) : Bool :=
  !s.data.isEmpty && s.data.all pyIsDigitChar

/-- s is a nonempty string of ASCII decimal digits (a "purely numeric"
line in the sense of the spec). -/
def isAsciiDigits (s : String) : Bool :=
  !s.data.isEmpty && s.data.all isAsciiDigit

/-- Value of a big-endian list of ASCII digit characters. -/
def digitsVal (l : List Char) : Nat :=
  l.foldl (fun a c => a * 10 + (c.toNat - 48)) 0

/-- Python int(s) for a string s that passed s.isdigit(): succeeds exactly
when every character is a decimal digit; a digit-class character that is
not a decimal digit (e.g. a superscript) makes int() raise, modelled as
none. -/
def pyInt (s : String) : Option Nat :=
  if isAsciiDigits s then some (digitsVal s.data) else none

/-! ### Book records and the text scanner (extract_books) -/

/-- One parsed book block, exactly the dict built at lines 62-69 of the
script. -/
structure BookRecord where
  book_number : Nat
  color : String
  short_ru : String
  long_ru : String
  short_en : String
  long_en : String
deriving DecidableEq, Repr

/-- lines[i].strip(): the i-th line of the file, stripped. -/
def lineAt (lines : List String) (i : Nat) : String :=
  pyStrip (lines.getD i "")

/-- The color test re.match(r'^#[0-9a-fA-F]{6}$', line). -/
def isColorLine (s : String) : Bool :=
  match s.data with
  | '#' :: rest => rest.length == 6 && rest.all (fun c => isAsciiDigit c || ('a' ≤ c && c ≤ 'f') || ('A' ≤ c && c ≤ 'F'))
  | _ => false

/-- Outcome of the try-block at lines 30-77 of the script when the color
pattern has matched at index i. -/
inductive BlockResult where
  | halt
  | skip
  | err
  | record (key : Nat) (rec : BookRecord)
deriving DecidableEq, Repr

/-- The record the script builds from the block starting at line i. -/
def blockRecord (lines : List String) (i : Nat) : BookRecord :=
  { book_number := digitsVal (lineAt lines (i+1)).data
    color := lineAt lines i
    short_ru := lineAt lines (i+2)
    long_ru := lineAt lines (i+3)
    short_en := lineAt lines (i+4)
    long_en := lineAt lines (i+5) }

/-- Body of the try-block: bounds check (`if i + 5 >= len(lines): break`),
then the isdigit check on the stripped next line (false positive: advance
one line), then int() (which can raise on a non-decimal digit class
character), then the four name lines. -/
def parseBlockAt (lines : List String) (i : Nat) : BlockResult :=
  if lines.length ≤ i + 5 then .halt
  else
    let number_line := lineAt lines (i+1)
    if pyStrIsDigit number_line = false then .skip
    else
      match pyInt number_line with
      | none => .err
      | some n =>
        .record n
          { book_number := n
            color := lineAt lines i
            short_ru := lineAt lines (i+2)
            long_ru := lineAt lines (i+3)
            short_en := lineAt lines (i+4)
            long_en := lineAt lines (i+5) }

/-- The while-loop of extract_books.  The books dict is modelled as the
list of assignments `books[key] = rec` in scan order.  Control flow:
halt returns, skip and a caught exception advance one line, a parsed
record advances six lines, a non-color line advances one line.  Fuel makes
the recursion structural; lines.length + 1 - i fuel always suffices since
every step advances i by at least one. -/
def extract_books_go (lines : List String) : Nat → Nat → List (Nat × BookRecord) → List (Nat × BookRecord)
  | 0, _, books => books
  | fuel+1, i, books =>
    if i < lines.length then
      if isColorLine (lineAt lines i) then
        match parseBlockAt lines i with
        | .halt => books
        | .skip => extract_books_go lines fuel (i+1) books
        | .err => extract_books_go lines fuel (i+1) books
        | .record k r => extract_books_go lines fuel (i+6) (books ++ [(k, r)])
      else extract_books_go lines fuel (i+1) books
    else books

/-- The scan of extract_books started at line i with dict contents
books. -/
def scanBooks (lines : List String) (i : Nat) (books : List (Nat × BookRecord)) : List (Nat × BookRecord) :=
  extract_books_go lines (lines.length + 1) i books

/-- extract_books: the full scan, as the list of dict assignments in scan
order. -/
def extract_books (lines : List String) : List (Nat × BookRecord) :=
  scanBooks lines 0 []

/-- Python dict lookup on an assignment list: the last assignment to the
key wins. -/
def dictLookup (l : List (Nat × BookRecord)) (k : Nat) : Option BookRecord :=
  (l.reverse.find? fun p => p.1 == k).map Prod.snd

/-- The key set of the dict built from an assignment list. -/
def dictKeys (l : List (Nat × BookRecord)) : List Nat :=
  (l.map Prod.fst).dedup

/-! ### JSON key round-trip (books.json) and dict semantics -/

/-- Decimal digit character of a value below ten. -/
def digitChar (d : Nat) : Char :=
  match d with
  | 0 => '0' | 1 => '1' | 2 => '2' | 3 => '3' | 4 => '4'
  | 5 => '5' | 6 => '6' | 7 => '7' | 8 => '8' | _ => '9'

/-- Little-endian decimal digits of n (empty for 0). -/
def decimalDigitsRev (n : Nat) : List Char :=
  if h : n = 0 then [] else digitChar (n % 10) :: decimalDigitsRev (n / 10)
decreasing_by exact Nat.div_lt_self (Nat.pos_of_ne_zero h) (by omega)

/-- str(n): the decimal rendering json.dump uses for an integer dict
key. -/
def decimalString (n : Nat) : String :=
  if n = 0 then "0" else ⟨(decimalDigitsRev n).reverse⟩

/-- The list of keys of books.json as written by json.dump: the dict's
keys (first-insertion order, deduplicated) rendered as strings. -/
def booksJsonKeys (lines : List String) : List String :=
  (dictKeys (extract_books lines)).map decimalString

/-! ### The reading-plan extractor (extract_plan) -/

/-- One row of the reading_plan table, in the column order of the SELECT
star: day, evening, item, book_number, start_chapter, start_verse,
end_chapter, end_verse.  SQLite integers are unbounded here, so Int. -/
structure PlanRow where
  day : Int
  evening : Int
  item : Int
  book_number : Int
  start_chapter : Int
  start_verse : Int
  end_chapter : Int
  end_verse : Int
deriving DecidableEq, Repr

/-- The dict appended per row at lines 113-119 of the script; note there
is no evening field. -/
structure ReadingItem where
  book_number : Int
  start_chapter : Int
  start_verse : Int
  end_chapter : Int
  end_verse : Int
deriving DecidableEq, Repr

/-- One element of the output plan list. -/
structure DayPlan where
  day : Int
  readings : List ReadingItem
deriving DecidableEq, Repr

/-- The ReadingItem built from a row. -/
def toReading (r : PlanRow) : ReadingItem :=
  ⟨r.book_number, r.start_chapter, r.start_verse, r.end_chapter, r.end_verse⟩

/-- The for-loop of extract_plan: state is (current_day, day_items, plan);
a row whose day differs from current_day flushes the buffer unless
current_day is still the -1 sentinel; after the loop a nonempty buffer is
flushed. -/
def extract_plan_go : List PlanRow → Int → List ReadingItem → List DayPlan → List DayPlan
  | [], cd, items, plan => if items.isEmpty then plan else plan ++ [⟨cd, items⟩]
  | r :: rest, cd, items, plan =>
    if r.day = cd then
      extract_plan_go rest cd (items ++ [toReading r]) plan
    else
      extract_plan_go rest r.day [toReading r]
        (if cd = -1 then plan else plan ++ [⟨cd, items⟩])

/-- extract_plan on the ordered rows: current_day starts at -1 with empty
buffers. -/
def extract_plan (rows : List PlanRow) : List DayPlan :=
  extract_plan_go rows (-1) [] []

/-- Reference grouping: split the row list into maximal runs of equal
consecutive day values, one DayPlan per run. -/
def planGroups : List PlanRow → List DayPlan
  | [] => []
  | r :: rest =>
    ⟨r.day, toReading r :: (rest.takeWhile fun s => s.day = r.day).map toReading⟩ ::
      planGroups (rest.dropWhile fun s => s.day = r.day)
termination_by l => l.length
decreasing_by
  simp only [List.length_cons]
  exact Nat.lt_succ_of_le (List.Sublist.length_le (List.dropWhile_sublist _))

/-- The sentinel's effect on the grouped output: every group with day -1
other than the final one is dropped (its flush is suppressed because
current_day = -1 is mistaken for "no current day"); the final group is
always flushed by the end-of-loop check. -/
def pruneSentinel : List DayPlan → List DayPlan
  | [] => []
  | [g] => [g]
  | g :: g' :: rest =>
    if g.day = -1 then pruneSentinel (g' :: rest) else g :: pruneSentinel (g' :: rest)

/-- The ordering "day ASC, item ASC" of the SQL query. -/
def planRowLe (r s : PlanRow) : Prop :=
  r.day < s.day ∨ (r.day = s.day ∧ r.item ≤ s.item)

instance : DecidablePred fun p : PlanRow × PlanRow => planRowLe p.1 p.2 := by
  intro p
  unfold planRowLe
  infer_instance

instance (r s : PlanRow) : Decidable (planRowLe r s) := by
  unfold planRowLe
  infer_instance

/-- A sample plan row with the given day and item. -/
def exRow (d it : Int) : PlanRow := ⟨d, 0, it, 40, 1, 1, 1, 5⟩

/-- Day-only comparison of rows. -/
def dayLe (r s : PlanRow) : Prop := r.day ≤ s.day

/-- Agreement of two rows on every column except evening. -/
def agreesExceptEvening (r s : PlanRow) : Prop :=
  r.day = s.day ∧ r.item = s.item ∧ r.book_number = s.book_number ∧
  r.start_chapter = s.start_chapter ∧ r.start_verse = s.start_verse ∧
  r.end_chapter = s.end_chapter ∧ r.end_verse = s.end_verse

/-! ### Loop lemmas for the scanner -/

/-- The fuel is irrelevant as long as it covers the lines left to scan:
every loop iteration advances i by at least one. -/
theorem extract_books_go_fuel (lines : List String) :
    ∀ fuel fuel' i books, lines.length - i ≤ fuel → lines.length - i ≤ fuel' →
      extract_books_go lines fuel i books = extract_books_go lines fuel' i books := by
  intro fuel
  induction fuel with
  | zero =>
    intro fuel' i books h h'
    have hi : lines.length ≤ i := Nat.le_of_sub_eq_zero (Nat.le_zero.mp h)
    cases fuel' with
    | zero => rfl
    | succ f =>
      simp only [extract_books_go]
      rw [if_neg (by omega)]
  | succ f ih =>
    intro fuel' i books h h'
    cases fuel' with
    | zero =>
      have hi : lines.length ≤ i := Nat.le_of_sub_eq_zero (Nat.le_zero.mp h')
      simp only [extract_books_go]
      rw [if_neg (by omega)]
    | succ f' =>
      simp only [extract_books_go]
      by_cases hi : i < lines.length
      · rw [if_pos hi, if_pos hi]
        by_cases hc : isColorLine (lineAt lines i) = true
        · rw [if_pos hc, if_pos hc]
          cases parseBlockAt lines i with
          | halt => rfl
          | skip => exact ih f' (i+1) books (by omega) (by omega)
          | err => exact ih f' (i+1) books (by omega) (by omega)
          | record k r => exact ih f' (i+6) (books ++ [(k, r)]) (by omega) (by omega)
        · rw [if_neg hc, if_neg hc]
          exact ih f' (i+1) books (by omega) (by omega)
      · rw [if_neg hi, if_neg hi]

/-- One unfolding of the scan at a position that is in bounds. -/
theorem scanBooks_step (lines : List String) (i : Nat) (books : List (Nat × BookRecord))
    (hi : i < lines.length) :
    scanBooks lines i books =
      if isColorLine (lineAt lines i) then
        match parseBlockAt lines i with
        | .halt => books
        | .skip => scanBooks lines (i+1) books
        | .err => scanBooks lines (i+1) books
        | .record k r => scanBooks lines (i+6) (books ++ [(k, r)])
      else scanBooks lines (i+1) books := by
  show extract_books_go lines (lines.length + 1) i books = _
  have h1 : lines.length + 1 = lines.length + 1 := rfl
  conv_lhs => rw [show lines.length + 1 = (lines.length) + 1 from rfl]
  simp only [extract_books_go, if_pos hi]
  by_cases hc : isColorLine (lineAt lines i) = true
  · rw [if_pos hc, if_pos hc]
    cases parseBlockAt lines i with
    | halt => rfl
    | skip => exact extract_books_go_fuel lines _ _ _ _ (by omega) (by omega)
    | err => exact extract_books_go_fuel lines _ _ _ _ (by omega) (by omega)
    | record k r => exact extract_books_go_fuel lines _ _ _ _ (by omega) (by omega)
  · rw [if_neg hc, if_neg hc]
    exact extract_books_go_fuel lines _ _ _ _ (by omega) (by omega)

/-- Within six lines of the end of the file no record can ever be added:
every color-line position halts on the bounds check and every other
position just advances. -/
theorem extract_books_go_tail (lines : List String) :
    ∀ fuel i books, lines.length ≤ i + 5 →
      extract_books_go lines fuel i books = books := by
  intro fuel
  induction fuel with
  | zero => intro i books _; rfl
  | succ f ih =>
    intro i books h
    simp only [extract_books_go]
    by_cases hi : i < lines.length
    · rw [if_pos hi]
      by_cases hc : isColorLine (lineAt lines i) = true
      · rw [if_pos hc]
        have : parseBlockAt lines i = .halt := by
          unfold parseBlockAt
          rw [if_pos h]
        rw [this]
      · rw [if_neg hc]
        exact ih (i+1) books (by omega)
    · rw [if_neg hi]

/-- A strictly numeric line passes isdigit and int() returns its value. -/
theorem pyInt_of_isAsciiDigits (s : String) (h : isAsciiDigits s = true) :
    pyStrIsDigit s = true ∧ pyInt s = some (digitsVal s.data) := by
  unfold isAsciiDigits at h
  unfold pyStrIsDigit pyInt pyIsDigitChar isAsciiDigits
  simp only [Bool.and_eq_true] at h ⊢
  obtain ⟨h1, h2⟩ := h
  refine ⟨⟨h1, ?_⟩, ?_⟩
  · simp only [List.all_eq_true] at h2 ⊢
    intro c hc
    simp [h2 c hc]
  · rw [if_pos (by simp [h1, h2])]

/-- C1: a well-formed 6-line block at position i (a stripped color line,
a purely numeric line, four name lines, all in bounds) makes the scan
append exactly one assignment, keyed by the integer on the second line,
whose fields are the block's stripped lines, and resume six lines later,
strictly after the consumed block. -/
theorem books_block_parsed (lines : List String) (books : List (Nat × BookRecord)) (i : Nat)
    (h6 : i + 5 < lines.length)
    (hc : isColorLine (lineAt lines i) = true)
    (hn : isAsciiDigits (lineAt lines (i+1)) = true) :
    scanBooks lines i books =
      scanBooks lines (i + 6)
        (books ++ [(digitsVal (lineAt lines (i+1)).data, blockRecord lines i)]) := by
  obtain ⟨hdig, hint⟩ := pyInt_of_isAsciiDigits _ hn
  have hblock : parseBlockAt lines i =
      .record (digitsVal (lineAt lines (i+1)).data) (blockRecord lines i) := by
    unfold parseBlockAt
    rw [if_neg (by omega)]
    simp only [hdig, hint]
    rfl
  rw [scanBooks_step lines i books (by omega), if_pos hc, hblock]

/-- Witness for C1 on the spec's example block. -/
theorem books_block_parsed_witness :
    scanBooks ["#1A2B3C", "7", "Short", "Long", "Shrt", "Lng"] 0 [] =
      scanBooks ["#1A2B3C", "7", "Short", "Long", "Shrt", "Lng"] 6
        ([] ++ [(digitsVal (lineAt ["#1A2B3C", "7", "Short", "Long", "Shrt", "Lng"] 1).data,
          blockRecord ["#1A2B3C", "7", "Short", "Long", "Shrt", "Lng"] 0)]) :=
  books_block_parsed _ [] 0 (by decide) (by decide) (by decide)

/-- C4: a color line whose following line fails isdigit produces no
record; the scan from i and the scan from i+1 agree, so the prospective
block is not consumed and later blocks are still found.  (If fewer than
six lines remain the loop breaks instead, but then no scan from any later
position can add a record either, so the two scans still agree.) -/
theorem books_false_positive_skips_one (lines : List String) (books : List (Nat × BookRecord)) (i : Nat)
    (hi : i + 1 < lines.length)
    (hc : isColorLine (lineAt lines i) = true)
    (hn : pyStrIsDigit (lineAt lines (i+1)) = false) :
    scanBooks lines i books = scanBooks lines (i+1) books := by
  by_cases hb : lines.length ≤ i + 5
  · rw [scanBooks_step lines i books (by omega), if_pos hc]
    have hhalt : parseBlockAt lines i = .halt := by
      unfold parseBlockAt
      rw [if_pos hb]
    rw [hhalt]
    exact (extract_books_go_tail lines _ (i+1) books (by omega)).symm
  · rw [scanBooks_step lines i books (by omega), if_pos hc]
    have hskip : parseBlockAt lines i = .skip := by
      unfold parseBlockAt
      rw [if_neg hb]
      simp only [hn]
      rfl
    rw [hskip]

/-- Witness for C4: a color line followed by a non-numeric line. -/
theorem books_false_positive_skips_one_witness :
    scanBooks ["#AABBCC", "x", "a", "b", "c", "d"] 0 [] =
      scanBooks ["#AABBCC", "x", "a", "b", "c", "d"] 1 [] :=
  books_false_positive_skips_one _ [] 0 (by decide) (by decide) (by decide)

/-- C5: a color line with fewer than six lines remaining adds no record
and the scan stops there, returning the books collected so far; nothing
raises (the embedding is total). -/
theorem books_truncated_block_no_record (lines : List String) (books : List (Nat × BookRecord)) (i : Nat)
    (hi : i < lines.length)
    (hc : isColorLine (lineAt lines i) = true)
    (hb : lines.length ≤ i + 5) :
    scanBooks lines i books = books := by
  rw [scanBooks_step lines i books hi, if_pos hc]
  have hhalt : parseBlockAt lines i = .halt := by
    unfold parseBlockAt
    rw [if_pos hb]
  rw [hhalt]

/-- Witness for C5: a truncated trailing block. -/
theorem books_truncated_block_no_record_witness :
    scanBooks ["#AABBCC", "7", "a"] 0 [(3, ⟨3, "#000000", "s", "l", "se", "le"⟩)] =
      [(3, ⟨3, "#000000", "s", "l", "se", "le"⟩)] :=
  books_truncated_block_no_record _ _ 0 (by decide) (by decide) (by decide)

/-- C6: when the try-block raises (in this code: int() on a line that
passes isdigit with a non-decimal digit character), the exception is
caught, no record is added, and the scan resumes at the next line; the
parser itself never propagates the failure, so the final book list holds
only successfully parsed blocks. -/
theorem books_error_caught_resumes (lines : List String) (books : List (Nat × BookRecord)) (i : Nat)
    (hi : i < lines.length)
    (hc : isColorLine (lineAt lines i) = true)
    (herr : parseBlockAt lines i = .err) :
    scanBooks lines i books = scanBooks lines (i+1) books := by
  rw [scanBooks_step lines i books hi, if_pos hc, herr]

/-- Witness for C6: the number line is a superscript digit, so isdigit
passes but int() raises. -/
theorem books_error_caught_resumes_witness :
    scanBooks ["#AABBCC", "²", "a", "b", "c", "d"] 0 [] =
      scanBooks ["#AABBCC", "²", "a", "b", "c", "d"] 1 [] :=
  books_error_caught_resumes _ [] 0 (by decide) (by decide) (by decide)

theorem digitChar_spec (d : Nat) (h : d < 10) :
    isAsciiDigit (digitChar d) = true ∧ (digitChar d).toNat - 48 = d := by
  interval_cases d <;> exact ⟨by decide, by decide⟩

theorem decimalDigitsRev_ascii (n : Nat) :
    (decimalDigitsRev n).all isAsciiDigit = true := by
  induction n using Nat.strong_induction_on with
  | _ n ih =>
    rw [decimalDigitsRev]
    by_cases h : n = 0
    · rw [dif_pos h]; rfl
    · rw [dif_neg h]
      simp only [List.all_cons, Bool.and_eq_true]
      exact ⟨(digitChar_spec (n % 10) (Nat.mod_lt _ (by omega))).1,
        ih (n / 10) (Nat.div_lt_self (Nat.pos_of_ne_zero h) (by omega))⟩

theorem digitsVal_reverse_decimalDigitsRev (n : Nat) :
    digitsVal (decimalDigitsRev n).reverse = n := by
  have key : ∀ m, (decimalDigitsRev m).foldr (fun c a => a * 10 + (c.toNat - 48)) 0 = m := by
    intro m
    induction m using Nat.strong_induction_on with
    | _ m ih =>
      rw [decimalDigitsRev]
      by_cases h : m = 0
      · rw [dif_pos h]; simp [h]
      · rw [dif_neg h]
        simp only [List.foldr_cons]
        rw [ih (m / 10) (Nat.div_lt_self (Nat.pos_of_ne_zero h) (by omega)),
          (digitChar_spec (m % 10) (Nat.mod_lt _ (by omega))).2]
        omega
  rw [digitsVal, List.foldl_reverse]
  exact key n

/-- Round trip: int(str(n)) recovers n. -/
theorem pyInt_decimalString (n : Nat) : pyInt (decimalString n) = some n := by
  by_cases h : n = 0
  · subst h; decide
  · rw [decimalString, if_neg h, pyInt]
    have hascii : isAsciiDigits ⟨(decimalDigitsRev n).reverse⟩ = true := by
      rw [isAsciiDigits]
      simp only [Bool.and_eq_true]
      constructor
      · have : decimalDigitsRev n ≠ [] := by
          rw [decimalDigitsRev, dif_neg h]
          exact List.cons_ne_nil _ _
        simpa [List.isEmpty_iff] using fun hh => this (List.reverse_eq_nil_iff.mp hh)
      · show ((decimalDigitsRev n).reverse).all isAsciiDigit = true
        rw [List.all_reverse]
        exact decimalDigitsRev_ascii n
    rw [if_pos hascii]
    show some (digitsVal (decimalDigitsRev n).reverse) = some n
    rw [digitsVal_reverse_decimalDigitsRev]

/-- C8: decoding the keys of books.json back to integers yields exactly
the parser's key set, i.e. the book numbers of the valid blocks of the
source text, in order; the key set survives the stringification json.dump
applies to integer dict keys. -/
theorem books_json_key_roundtrip (lines : List String) :
    (booksJsonKeys lines).map pyInt = (dictKeys (extract_books lines)).map some := by
  rw [booksJsonKeys, List.map_map]
  exact List.map_congr_left fun k _ => pyInt_decimalString k

/-- find? skips a prefix on which the predicate fails everywhere. -/
theorem find?_append_of_none {α : Type} (p : α → Bool) :
    ∀ xs ys : List α, (∀ x ∈ xs, p x = false) → List.find? p (xs ++ ys) = List.find? p ys := by
  intro xs
  induction xs with
  | nil => intro ys _; rfl
  | cons x t ih =>
    intro ys h
    simp only [List.cons_append, List.find?]
    rw [h x (List.mem_cons_self x t)]
    exact ih ys fun y hy => h y (List.mem_cons_of_mem x hy)

/-- C9: if the scan's last assignment to key k is the record r (in
particular when two valid blocks carry the same book number and r is the
later one), the dict maps k to r and holds exactly one record for k:
later duplicates silently overwrite earlier ones. -/
theorem books_duplicate_last_wins (lines : List String) (k : Nat) (r : BookRecord)
    (pre post : List (Nat × BookRecord))
    (h : extract_books lines = pre ++ (k, r) :: post)
    (hpost : ∀ p ∈ post, p.1 ≠ k) :
    dictLookup (extract_books lines) k = some r ∧
      (dictKeys (extract_books lines)).count k = 1 := by
  constructor
  · rw [dictLookup, h]
    have hrev : (pre ++ (k, r) :: post).reverse = post.reverse ++ (k, r) :: pre.reverse := by
      simp
    rw [hrev, find?_append_of_none _ _ _ (by
      intro x hx
      have hx' : x ∈ post := List.mem_reverse.mp hx
      simpa using hpost x hx')]
    simp [List.find?]
  · have hmem : k ∈ (extract_books lines).map Prod.fst := by
      rw [h]
      simp
    exact List.count_eq_one_of_mem (List.nodup_dedup _) (List.mem_dedup.mpr hmem)

/-- Witness for C9: two valid blocks with book number 7; the later one's
record wins and the key occurs once. -/
theorem books_duplicate_last_wins_witness :
    dictLookup (extract_books ["#AAAAAA", "7", "a", "b", "c", "d", "#BBBBBB", "7", "e", "f", "g", "h"]) 7 =
        some ⟨7, "#BBBBBB", "e", "f", "g", "h"⟩ ∧
      (dictKeys (extract_books ["#AAAAAA", "7", "a", "b", "c", "d", "#BBBBBB", "7", "e", "f", "g", "h"])).count 7 = 1 :=
  books_duplicate_last_wins _ 7 ⟨7, "#BBBBBB", "e", "f", "g", "h"⟩
    [(7, ⟨7, "#AAAAAA", "a", "b", "c", "d"⟩)] [] (by decide) (by decide)

/-! ### Sanity checks on concrete inputs -/

example :
    extract_plan [exRow 1 1, exRow 1 2, exRow 2 1] =
      [⟨1, [toReading (exRow 1 1), toReading (exRow 1 2)]⟩, ⟨2, [toReading (exRow 2 1)]⟩] := by
  decide

example : extract_plan [exRow (-1) 1, exRow 2 1] = [⟨2, [toReading (exRow 2 1)]⟩] := by
  decide

example : extract_plan [exRow 2 1, exRow (-1) 1] =
    [⟨2, [toReading (exRow 2 1)]⟩, ⟨-1, [toReading (exRow (-1) 1)]⟩] := by
  decide

/-! ### Characterisation of extract_plan -/

/-- The loop only ever appends to the output list. -/
theorem extract_plan_go_acc :
    ∀ (rows : List PlanRow) (cd : Int) (items : List ReadingItem) (plan : List DayPlan),
      extract_plan_go rows cd items plan = plan ++ extract_plan_go rows cd items [] := by
  intro rows
  induction rows with
  | nil =>
    intro cd items plan
    simp only [extract_plan_go]
    by_cases h : items.isEmpty
    · simp [h]
    · simp [h]
  | cons r rest ih =>
    intro cd items plan
    simp only [extract_plan_go]
    by_cases hr : r.day = cd
    · rw [if_pos hr, if_pos hr]
      exact ih cd (items ++ [toReading r]) plan
    · rw [if_neg hr, if_neg hr]
      by_cases hcd : cd = -1
      · rw [if_pos hcd, if_pos hcd]
        exact ih r.day [toReading r] plan
      · rw [if_neg hcd, if_neg hcd]
        have h1 := ih r.day [toReading r] (plan ++ [({ day := cd, readings := items } : DayPlan)])
        have h2 := ih r.day [toReading r] [({ day := cd, readings := items } : DayPlan)]
        rw [h1, List.nil_append, h2]
        simp

theorem takeWhile_eq_of_dropWhile_eq_nil {α : Type} (p : α → Bool) (l : List α)
    (h : l.dropWhile p = []) : l.takeWhile p = l := by
  have := List.takeWhile_append_dropWhile (p := p) (l := l)
  rw [h, List.append_nil] at this
  exact this

theorem planGroups_nil : planGroups [] = [] := by
  rw [planGroups]

theorem planGroups_cons (r : PlanRow) (rest : List PlanRow) :
    planGroups (r :: rest) =
      ⟨r.day, toReading r :: (rest.takeWhile fun s => s.day = r.day).map toReading⟩ ::
        planGroups (rest.dropWhile fun s => s.day = r.day) := by
  rw [planGroups]

theorem planGroups_cons_ne_nil (r : PlanRow) (rest : List PlanRow) :
    ∃ G gs, planGroups (r :: rest) = G :: gs := by
  rw [planGroups_cons]
  exact ⟨_, _, rfl⟩

theorem pruneSentinel_nil : pruneSentinel [] = [] := rfl

theorem pruneSentinel_single (g : DayPlan) : pruneSentinel [g] = [g] := rfl

theorem pruneSentinel_cons (g g' : DayPlan) (rest : List DayPlan) :
    pruneSentinel (g :: g' :: rest) =
      if g.day = -1 then pruneSentinel (g' :: rest) else g :: pruneSentinel (g' :: rest) := rfl

/-- Joint characterisation of the loop from an arbitrary state: with a
real current day (≠ -1) and a nonempty buffer the loop emits the buffer
completed by the current run and then the pruned groups of the rest; with
the sentinel current day the buffer is silently discarded unless the whole
remaining input belongs to it. -/
theorem extract_plan_go_spec (rows : List PlanRow) :
    (∀ (d : Int) (items : List ReadingItem), d ≠ -1 → items ≠ [] →
      extract_plan_go rows d items [] =
        pruneSentinel (⟨d, items ++ (rows.takeWhile fun s => s.day = d).map toReading⟩ ::
          planGroups (rows.dropWhile fun s => s.day = d))) ∧
    (∀ items : List ReadingItem,
      extract_plan_go rows (-1) items [] =
        if (rows.dropWhile fun s => s.day = -1).isEmpty then
          (if items.isEmpty && rows.isEmpty then [] else [⟨-1, items ++ rows.map toReading⟩])
        else pruneSentinel (planGroups (rows.dropWhile fun s => s.day = -1))) := by
  induction rows with
  | nil =>
    constructor
    · intro d items _ hi
      simp only [extract_plan_go, List.takeWhile_nil, List.dropWhile_nil, List.map_nil,
        List.append_nil, planGroups_nil, pruneSentinel_single]
      rw [if_neg (by simpa [List.isEmpty_iff] using hi)]
      simp
    · intro items
      simp only [extract_plan_go, List.dropWhile_nil, List.isEmpty_nil, List.map_nil,
        List.append_nil, Bool.and_true, if_true]
      by_cases h : items.isEmpty
      · simp [h]
      · simp [h]
  | cons r rest ih =>
    constructor
    · intro d items hd hi
      simp only [extract_plan_go]
      by_cases hr : r.day = d
      · rw [if_pos hr]
        rw [ih.1 d (items ++ [toReading r]) hd (by simp)]
        rw [List.takeWhile_cons_of_pos (by simp [hr]), List.dropWhile_cons_of_pos (by simp [hr])]
        simp
      · rw [if_neg hr, if_neg hd, List.nil_append]
        rw [extract_plan_go_acc]
        rw [List.takeWhile_cons_of_neg (by simp [hr]), List.dropWhile_cons_of_neg (by simp [hr])]
        by_cases hrn : r.day = -1
        · rw [hrn, ih.2 [toReading r]]
          by_cases hdw : ((rest.dropWhile fun s => s.day = (-1 : Int))).isEmpty
          · have hdw' : (rest.dropWhile fun s => s.day = (-1 : Int)) = [] := by
              simpa [List.isEmpty_iff] using hdw
            have htw : (rest.takeWhile fun s => s.day = (-1 : Int)) = rest :=
              takeWhile_eq_of_dropWhile_eq_nil _ _ hdw'
            rw [if_pos hdw, if_neg (by simp)]
            rw [planGroups_cons, hrn, htw, hdw', planGroups_nil]
            rw [pruneSentinel_cons]
            rw [if_neg hd, pruneSentinel_single]
            simp
          · rw [if_neg hdw]
            obtain ⟨G, gs, hGgs⟩ : ∃ G gs,
                planGroups (rest.dropWhile fun s => s.day = (-1 : Int)) = G :: gs := by
              rcases hq : rest.dropWhile fun s => s.day = (-1 : Int) with _ | ⟨y, t⟩
              · rw [hq] at hdw; simp at hdw
              · obtain ⟨G, gs, h⟩ := planGroups_cons_ne_nil y t
                exact ⟨G, gs, by rw [hq, h]⟩
            rw [planGroups_cons, hrn, hGgs]
            rw [pruneSentinel_cons, if_neg hd]
            rw [pruneSentinel_cons, if_pos rfl]
            rw [← hGgs]
            simp
        · rw [ih.1 r.day [toReading r] hrn (by simp)]
          rw [planGroups_cons]
          rw [pruneSentinel_cons, if_neg hd]
          simp
    · intro items
      simp only [extract_plan_go]
      by_cases hr : r.day = -1
      · rw [if_pos hr]
        rw [ih.2 (items ++ [toReading r])]
        rw [List.dropWhile_cons_of_pos (by simp [hr])]
        by_cases hdw : ((rest.dropWhile fun s => s.day = (-1 : Int))).isEmpty
        · rw [if_pos hdw, if_pos hdw]
          rw [if_neg (by simp), if_neg (by simp)]
          simp
        · rw [if_neg hdw, if_neg hdw]
      · rw [if_neg hr, if_pos trivial]
        rw [ih.1 r.day [toReading r] hr (by simp)]
        rw [List.dropWhile_cons_of_neg (by simp [hr])]
        rw [if_neg (by simp)]
        rw [planGroups_cons]
        simp

/-- extract_plan is the consecutive-day grouping of the rows with every
non-final day -1 group silently dropped by the sentinel check. -/
theorem extract_plan_eq_pruneSentinel (rows : List PlanRow) :
    extract_plan rows = pruneSentinel (planGroups rows) := by
  rw [extract_plan]
  rcases rows with _ | ⟨r, rest⟩
  · simp [extract_plan_go, planGroups_nil, pruneSentinel_nil]
  · rw [(extract_plan_go_spec (r :: rest)).2 []]
    by_cases hr : r.day = -1
    · rw [List.dropWhile_cons_of_pos (by simp [hr])]
      by_cases hdw : ((rest.dropWhile fun s => s.day = (-1 : Int))).isEmpty
      · have hdw' : (rest.dropWhile fun s => s.day = (-1 : Int)) = [] := by
          simpa [List.isEmpty_iff] using hdw
        have htw : (rest.takeWhile fun s => s.day = (-1 : Int)) = rest :=
          takeWhile_eq_of_dropWhile_eq_nil _ _ hdw'
        rw [if_pos hdw, if_neg (by simp)]
        rw [planGroups_cons, hr, htw, hdw', planGroups_nil, pruneSentinel_single]
        simp
      · rw [if_neg hdw]
        obtain ⟨G, gs, hGgs⟩ : ∃ G gs,
            planGroups (rest.dropWhile fun s => s.day = (-1 : Int)) = G :: gs := by
          rcases hq : rest.dropWhile fun s => s.day = (-1 : Int) with _ | ⟨y, t⟩
          · rw [hq] at hdw; simp at hdw
          · obtain ⟨G, gs, h⟩ := planGroups_cons_ne_nil y t
            exact ⟨G, gs, by rw [hq, h]⟩
        rw [planGroups_cons, hr, hGgs]
        rw [pruneSentinel_cons, if_pos rfl]
    · rw [List.dropWhile_cons_of_neg (by simp [hr])]
      rw [if_neg (by simp)]

/-! ### Properties of the grouping -/

theorem planRowLe_to_dayLe {rows : List PlanRow} (h : rows.Pairwise planRowLe) :
    rows.Pairwise dayLe := by
  refine h.imp ?_
  intro r s hrs
  rcases hrs with h1 | ⟨h1, _⟩
  · exact le_of_lt h1
  · exact le_of_eq h1

/-- Every group's day is the day of some row. -/
theorem planGroups_day_mem :
    ∀ (l : List PlanRow), ∀ dp ∈ planGroups l, ∃ r ∈ l, r.day = dp.day := by
  intro l
  induction l using planGroups.induct with
  | case1 => simp [planGroups_nil]
  | case2 r rest ih =>
    intro dp hdp
    rw [planGroups_cons] at hdp
    rcases List.mem_cons.mp hdp with rfl | hdp'
    · exact ⟨r, List.mem_cons_self r rest, rfl⟩
    · obtain ⟨x, hx, hxd⟩ := ih dp hdp'
      exact ⟨x, List.mem_cons_of_mem r ((List.dropWhile_sublist _).subset hx), hxd⟩

/-- The days of the groups are exactly the days of the rows. -/
theorem planGroups_days_iff :
    ∀ (l : List PlanRow) (d : Int),
      d ∈ (planGroups l).map DayPlan.day ↔ d ∈ l.map PlanRow.day := by
  intro l
  induction l using planGroups.induct with
  | case1 => simp [planGroups_nil]
  | case2 r rest ih =>
    intro d
    rw [planGroups_cons]
    simp only [List.map_cons, List.mem_cons]
    constructor
    · rintro (rfl | hd)
      · exact Or.inl rfl
      · refine Or.inr ?_
        have := (ih d).mp hd
        obtain ⟨x, hx, hxd⟩ := List.mem_map.mp this
        exact List.mem_map.mpr ⟨x, (List.dropWhile_sublist _).subset hx, hxd⟩
    · rintro (rfl | hd)
      · exact Or.inl rfl
      · obtain ⟨x, hx, hxd⟩ := List.mem_map.mp hd
        have hsplit := List.takeWhile_append_dropWhile (p := fun s => s.day = r.day) (l := rest)
        rw [← hsplit] at hx
        rcases List.mem_append.mp hx with hx' | hx'
        · refine Or.inl ?_
          have := List.mem_takeWhile_imp hx'
          simp only [decide_eq_true_eq] at this
          rw [← hxd, this]
        · exact Or.inr ((ih d).mpr (List.mem_map.mpr ⟨x, hx', hxd⟩))

/-- In a day-sorted list every row surviving the dropWhile of the leading
day-d run has a day strictly greater than d. -/
theorem dropWhile_day_gt :
    ∀ (l : List PlanRow) (d : Int), l.Pairwise dayLe → (∀ y ∈ l, d ≤ y.day) →
      ∀ x ∈ l.dropWhile (fun s => s.day = d), d < x.day := by
  intro l
  induction l with
  | nil => simp
  | cons y t ih =>
    intro d hp hall x hx
    by_cases hy : y.day = d
    · rw [List.dropWhile_cons_of_pos (by simp [hy])] at hx
      refine ih d hp.of_cons (fun z hz => ?_) x hx
      rw [← hy]
      exact (List.pairwise_cons.mp hp).1 z hz
    · rw [List.dropWhile_cons_of_neg (by simp [hy])] at hx
      have hdy : d < y.day := lt_of_le_of_ne (hall y (List.mem_cons_self y t)) (Ne.symm hy)
      rcases List.mem_cons.mp hx with rfl | hx'
      · exact hdy
      · exact lt_of_lt_of_le hdy ((List.pairwise_cons.mp hp).1 x hx')

/-- For day-sorted rows the group days strictly ascend. -/
theorem planGroups_days_sorted :
    ∀ (l : List PlanRow), l.Pairwise dayLe →
      ((planGroups l).map DayPlan.day).Pairwise (· < ·) := by
  intro l
  induction l using planGroups.induct with
  | case1 => simp [planGroups_nil]
  | case2 r rest ih =>
    intro hp
    rw [planGroups_cons]
    simp only [List.map_cons, List.pairwise_cons]
    constructor
    · intro d hd
      obtain ⟨dp, hdp, hdpd⟩ := List.mem_map.mp hd
      obtain ⟨x, hx, hxd⟩ := planGroups_day_mem _ dp hdp
      rw [← hdpd, ← hxd]
      exact dropWhile_day_gt rest r.day hp.of_cons
        (fun z hz => (List.pairwise_cons.mp hp).1 z hz) x hx
    · exact ih (hp.sublist ((List.dropWhile_sublist _).cons r))

/-- For day-sorted rows each group's readings are exactly the images of
the rows with that day, in source order. -/
theorem planGroups_readings :
    ∀ (l : List PlanRow), l.Pairwise dayLe →
      ∀ dp ∈ planGroups l,
        dp.readings = (l.filter fun x => x.day = dp.day).map toReading := by
  intro l
  induction l using planGroups.induct with
  | case1 => simp [planGroups_nil]
  | case2 r rest ih =>
    intro hp dp hdp
    have hgt : ∀ x ∈ rest.dropWhile (fun s => s.day = r.day), r.day < x.day :=
      dropWhile_day_gt rest r.day hp.of_cons (fun z hz => (List.pairwise_cons.mp hp).1 z hz)
    have hsplit : (rest.takeWhile fun s => s.day = r.day) ++ (rest.dropWhile fun s => s.day = r.day) = rest :=
      List.takeWhile_append_dropWhile _ _
    rw [planGroups_cons] at hdp
    rcases List.mem_cons.mp hdp with rfl | hdp'
    · dsimp only
      rw [List.filter_cons_of_pos (by simp)]
      have htwf : ((rest.takeWhile fun s => s.day = r.day).filter fun x => x.day = r.day) =
          rest.takeWhile (fun s => s.day = r.day) := by
        rw [List.filter_eq_self]
        intro x hx
        have h := List.mem_takeWhile_imp hx
        exact h
      have hdwf : ((rest.dropWhile fun s => s.day = r.day).filter fun x => x.day = r.day) = [] := by
        rw [List.filter_eq_nil_iff]
        intro x hx
        simp only [decide_eq_true_eq]
        exact ne_of_gt (hgt x hx)
      have hrest : (rest.filter fun x => x.day = r.day) = rest.takeWhile (fun s => s.day = r.day) := by
        conv_lhs => rw [← hsplit]
        rw [List.filter_append, htwf, hdwf, List.append_nil]
      rw [hrest]
      simp
    · have hne : r.day ≠ dp.day := by
        obtain ⟨x, hx, hxd⟩ := planGroups_day_mem _ dp hdp'
        rw [← hxd]
        exact ne_of_lt (hgt x hx)
      rw [ih (hp.sublist ((List.dropWhile_sublist _).cons r)) dp hdp']
      have htwf0 : ((rest.takeWhile fun s => s.day = r.day).filter fun x => x.day = dp.day) = [] := by
        rw [List.filter_eq_nil_iff]
        intro x hx
        have hxd := List.mem_takeWhile_imp hx
        simp only [decide_eq_true_eq] at hxd ⊢
        rw [hxd]
        exact hne
      have hfull : ((r :: rest).filter fun x => x.day = dp.day) =
          ((rest.dropWhile fun s => s.day = r.day).filter fun x => x.day = dp.day) := by
        rw [List.filter_cons_of_neg (by simp [hne])]
        conv_lhs => rw [← hsplit]
        rw [List.filter_append, htwf0, List.nil_append]
      rw [hfull]

/-- pruneSentinel only removes elements. -/
theorem pruneSentinel_sublist : ∀ l : List DayPlan, List.Sublist (pruneSentinel l) l := by
  intro l
  induction l with
  | nil => simp [pruneSentinel_nil]
  | cons g t ih =>
    cases t with
    | nil => simp [pruneSentinel_single]
    | cons g' rest =>
      rw [pruneSentinel_cons]
      by_cases h : g.day = -1
      · rw [if_pos h]
        exact ih.cons g
      · rw [if_neg h]
        exact ih.cons₂ g

/-- When no group carries the sentinel day the pruning is the identity. -/
theorem pruneSentinel_eq_self :
    ∀ l : List DayPlan, (∀ g ∈ l, g.day ≠ -1) → pruneSentinel l = l := by
  intro l
  induction l with
  | nil => intro _; rfl
  | cons g t ih =>
    intro h
    cases t with
    | nil => rfl
    | cons g' rest =>
      rw [pruneSentinel_cons, if_neg (h g (List.mem_cons_self g _))]
      rw [ih (fun x hx => h x (List.mem_cons_of_mem g hx))]

/-- C3: for rows delivered sorted by day then item, the emitted DayPlans
carry strictly ascending days, and each DayPlan's readings are exactly the
images (in source order) of the rows carrying its day, whose item values
ascend. -/

theorem plan_output_ordered (rows : List PlanRow) (hs : rows.Pairwise planRowLe) :
    ((extract_plan rows).map DayPlan.day).Pairwise (· < ·) ∧
    ∀ dp ∈ extract_plan rows,
      dp.readings = (rows.filter fun r => r.day = dp.day).map toReading ∧
      ((rows.filter fun r => r.day = dp.day).map PlanRow.item).Pairwise (· ≤ ·) := by
  have hday : rows.Pairwise dayLe := planRowLe_to_dayLe hs
  rw [extract_plan_eq_pruneSentinel]
  constructor
  · exact (planGroups_days_sorted rows hday).sublist ((pruneSentinel_sublist _).map DayPlan.day)
  · intro dp hdp
    have hdp' : dp ∈ planGroups rows := (pruneSentinel_sublist _).subset hdp
    refine ⟨planGroups_readings rows hday dp hdp', ?_⟩
    have hfil : (rows.filter fun r => r.day = dp.day).Pairwise planRowLe :=
      hs.sublist (List.filter_sublist rows)
    rw [List.pairwise_map]
    refine hfil.imp_of_mem ?_
    intro a b ha hb hab
    have hda : a.day = dp.day := by
      have := (List.mem_filter.mp ha).2
      simpa using this
    have hdb : b.day = dp.day := by
      have := (List.mem_filter.mp hb).2
      simpa using this
    rcases hab with h1 | ⟨_, h2⟩
    · rw [hda, hdb] at h1
      exact absurd h1 (lt_irrefl _)
    · exact h2

/-- Witness for C3 on the spec's example rows. -/
theorem plan_output_ordered_witness :
    ((extract_plan [exRow 1 1, exRow 1 2, exRow 2 1]).map DayPlan.day).Pairwise (· < ·) ∧
    ∀ dp ∈ extract_plan [exRow 1 1, exRow 1 2, exRow 2 1],
      dp.readings = ([exRow 1 1, exRow 1 2, exRow 2 1].filter fun r => r.day = dp.day).map toReading ∧
      (([exRow 1 1, exRow 1 2, exRow 2 1].filter fun r => r.day = dp.day).map PlanRow.item).Pairwise (· ≤ ·) :=
  plan_output_ordered _ (by decide)

/-- Counterexample to C2 as stated: the sorted rows with days -1 and 2
have two distinct day values but the extractor emits a single DayPlan,
because the day -1 group collides with the internal sentinel and is
dropped. -/
theorem plan_day_count_cex :
    ([exRow (-1) 1, exRow 2 1] : List PlanRow).Pairwise planRowLe ∧
    (extract_plan [exRow (-1) 1, exRow 2 1]).length = 1 ∧
    (([exRow (-1) 1, exRow 2 1].map PlanRow.day).dedup).length = 2 := by
  refine ⟨by decide, by decide, by decide⟩

/-- C2 (amended: no row carries the sentinel day -1): for rows sorted by
day then item, the output has exactly one DayPlan per distinct day value
present in the input — its day list is duplicate-free and covers exactly
the input's days — and each DayPlan's readings count the rows with its
day. -/
theorem plan_one_dayplan_per_day (rows : List PlanRow) (hs : rows.Pairwise planRowLe)
    (hnone : ∀ r ∈ rows, r.day ≠ -1) :
    ((extract_plan rows).map DayPlan.day).Nodup ∧
    (∀ d : Int, d ∈ (extract_plan rows).map DayPlan.day ↔ d ∈ rows.map PlanRow.day) ∧
    ∀ dp ∈ extract_plan rows, dp.readings.length = (rows.filter fun r => r.day = dp.day).length := by
  have hday : rows.Pairwise dayLe := planRowLe_to_dayLe hs
  have hpg : extract_plan rows = planGroups rows := by
    rw [extract_plan_eq_pruneSentinel]
    refine pruneSentinel_eq_self _ ?_
    intro g hg
    obtain ⟨r, hr, hrd⟩ := planGroups_day_mem rows g hg
    rw [← hrd]
    exact hnone r hr
  rw [hpg]
  refine ⟨?_, ?_, ?_⟩
  · exact (planGroups_days_sorted rows hday).imp ne_of_lt
  · exact planGroups_days_iff rows
  · intro dp hdp
    rw [planGroups_readings rows hday dp hdp, List.length_map]

/-- Witness for the amended C2. -/
theorem plan_one_dayplan_per_day_witness :
    ((extract_plan [exRow 1 1, exRow 1 2, exRow 2 1]).map DayPlan.day).Nodup ∧
    (∀ d : Int, d ∈ (extract_plan [exRow 1 1, exRow 1 2, exRow 2 1]).map DayPlan.day ↔
      d ∈ [exRow 1 1, exRow 1 2, exRow 2 1].map PlanRow.day) ∧
    ∀ dp ∈ extract_plan [exRow 1 1, exRow 1 2, exRow 2 1],
      dp.readings.length = ([exRow 1 1, exRow 1 2, exRow 2 1].filter fun r => r.day = dp.day).length :=
  plan_one_dayplan_per_day _ (by decide) (by decide)

/-- All rows of a list share the sentinel day: the takeWhile of an
appended list absorbs the whole prefix. -/
theorem takeWhile_append_all {α : Type} (p : α → Bool) :
    ∀ (u v : List α), (∀ x ∈ u, p x = true) →
      (u ++ v).takeWhile p = u ++ v.takeWhile p := by
  intro u
  induction u with
  | nil => intro v _; rfl
  | cons x t ih =>
    intro v h
    rw [List.cons_append, List.takeWhile_cons_of_pos (h x (List.mem_cons_self x t)),
      ih v (fun y hy => h y (List.mem_cons_of_mem x hy)), List.cons_append]

theorem dropWhile_append_all {α : Type} (p : α → Bool) :
    ∀ (u v : List α), (∀ x ∈ u, p x = true) →
      (u ++ v).dropWhile p = v.dropWhile p := by
  intro u
  induction u with
  | nil => intro v _; rfl
  | cons x t ih =>
    intro v h
    rw [List.cons_append, List.dropWhile_cons_of_pos (h x (List.mem_cons_self x t)),
      ih v (fun y hy => h y (List.mem_cons_of_mem x hy))]

/-- C10: rows of day -1 followed by rows of other days leave no trace in
the output: the sentinel check mistakes their accumulated readings for
"no current day" and never flushes them, so the result is that of the
remaining rows alone and no emitted DayPlan has day -1.  (When day -1 is
the final — or only — group it is flushed by the end-of-loop check.) -/
theorem plan_sentinel_day_dropped (a b : List PlanRow)
    (ha : ∀ r ∈ a, r.day = -1) (hb : ∀ r ∈ b, r.day ≠ -1) (hbne : b ≠ []) :
    extract_plan (a ++ b) = extract_plan b ∧
    ∀ dp ∈ extract_plan (a ++ b), dp.day ≠ -1 := by
  have h1 : extract_plan (a ++ b) = extract_plan b := by
    rcases a with _ | ⟨x, xs⟩
    · simp
    · rcases b with _ | ⟨y, t⟩
      · exact absurd rfl hbne
      rw [extract_plan_eq_pruneSentinel, extract_plan_eq_pruneSentinel]
      have hx : x.day = -1 := ha x (List.mem_cons_self x xs)
      have hxs : ∀ r ∈ xs, r.day = -1 := fun r hr => ha r (List.mem_cons_of_mem x hr)
      have htw : ((xs ++ y :: t).takeWhile fun s => s.day = x.day) = xs ++ [] := by
        rw [hx]
        rw [takeWhile_append_all _ xs (y :: t) (fun z hz => by simp [hxs z hz])]
        rw [List.takeWhile_cons_of_neg (by simpa using hb y (List.mem_cons_self y t))]
      have hdw : ((xs ++ y :: t).dropWhile fun s => s.day = x.day) = y :: t := by
        rw [hx]
        rw [dropWhile_append_all _ xs (y :: t) (fun z hz => by simp [hxs z hz])]
        rw [List.dropWhile_cons_of_neg (by simpa using hb y (List.mem_cons_self y t))]
      rw [List.cons_append, planGroups_cons, htw, hdw, hx]
      obtain ⟨G, gs, hGgs⟩ := planGroups_cons_ne_nil y t
      rw [hGgs, pruneSentinel_cons, if_pos rfl, ← hGgs]
  refine ⟨h1, ?_⟩
  intro dp hdp
  rw [h1] at hdp
  rw [extract_plan_eq_pruneSentinel] at hdp
  have hdp' : dp ∈ planGroups b := (pruneSentinel_sublist _).subset hdp
  obtain ⟨r, hr, hrd⟩ := planGroups_day_mem b dp hdp'
  rw [← hrd]
  exact hb r hr

/-- Witness for C10: a day -1 row followed by a day 2 row. -/
theorem plan_sentinel_day_dropped_witness :
    extract_plan ([exRow (-1) 1] ++ [exRow 2 1]) = extract_plan [exRow 2 1] ∧
    ∀ dp ∈ extract_plan ([exRow (-1) 1] ++ [exRow 2 1]), dp.day ≠ -1 :=
  plan_sentinel_day_dropped [exRow (-1) 1] [exRow 2 1] (by decide) (by decide) (by decide)

/-- C7: the output is independent of the evening column: two row
sequences that agree columnwise except possibly on evening produce the
same plan; accordingly ReadingItem carries no evening field at all. -/
theorem plan_evening_independent (rowsA rowsB : List PlanRow)
    (h : List.Forall₂ agreesExceptEvening rowsA rowsB) :
    extract_plan rowsA = extract_plan rowsB := by
  have main : ∀ cd items plan,
      extract_plan_go rowsA cd items plan = extract_plan_go rowsB cd items plan := by
    induction h with
    | nil => intro cd items plan; rfl
    | @cons x y xs ys hxy htail ih =>
      intro cd items plan
      obtain ⟨hday, _, hbn, hsc, hsv, hec, hev⟩ := hxy
      have hri : toReading x = toReading y := by
        rw [toReading, toReading, hbn, hsc, hsv, hec, hev]
      simp only [extract_plan_go]
      rw [hday, hri]
      by_cases hc : y.day = cd
      · rw [if_pos hc, if_pos hc]
        exact ih cd (items ++ [toReading y]) plan
      · rw [if_neg hc, if_neg hc]
        exact ih y.day [toReading y] _
  exact main (-1) [] []

/-- Witness for C7: two single-row inputs differing only in evening. -/
theorem plan_evening_independent_witness :
    extract_plan [⟨1, 0, 1, 40, 1, 1, 1, 5⟩] = extract_plan [⟨1, 1, 1, 40, 1, 1, 1, 5⟩] :=
  plan_evening_independent _ _
    (List.Forall₂.cons ⟨rfl, rfl, rfl, rfl, rfl, rfl, rfl⟩ List.Forall₂.nil)

example : pyStrip "  #1A2B3C \n" = "#1A2B3C" := by decide
example : isColorLine "#1A2B3C" = true := by decide
example : isColorLine "#1A2B3G" = false := by decide
example : pyStrIsDigit "²" = true := by decide
example : pyInt "²" = none := by decide
example : pyInt "40" = some 40 := by decide
example :
    extract_books ["#1A2B3C", "7", "Short", "Long", "Shrt", "Lng"] =
      [(7, ⟨7, "#1A2B3C", "Short", "Long", "Shrt", "Lng"⟩)] := by decide
